import Mathlib

/-!
Verification of the point_cloud_viewer repository.

Part A embeds the Web Mercator projection utility
(src/src/math/web_mercator.rs).  The Rust code is generic over a scalar
type `S: RealField`; the zoomed-coordinate functions are embedded
generically over a `LinearOrderedField`, while `to_lat_lng`, which uses
transcendental functions, is embedded over the reals (idealizing the
floating-point arithmetic by exact real arithmetic).

Part B embeds the benchmark configuration of
src/point_viewer_grpc/src/bin/octree_benchmark.rs (batch size and the
default worker-thread count).

Part C models the concurrent spatial query and streaming engine
(spatial index, query geometry, traversal scheduler, parallel iterator
and point-cloud client).  The engine's implementation is not part of
the excerpt, only its callers are, so these definitions are modelled
from the specification, as documented on each one.
-/

/-! ### Part A: Web Mercator (src/src/math/web_mercator.rs) -/

/-- Rust: `const TILE_SIZE: u32 = 256;`. -/
def TILE_SIZE : Nat := 256

/-- Rust: `pub const MAX_ZOOM: u8 = 23;`. -/
def MAX_ZOOM : Nat := 23

/-- Rust: `TILE_SIZE << z` on `u32`, i.e. `256 * 2^z` reduced modulo `2^32`.
Both call sites guard with `z ≤ MAX_ZOOM`, where no wrap-around occurs. -/
def tileShift (z : Nat) : Nat := (TILE_SIZE * 2 ^ z) % 2 ^ 32

/-- Rust: `struct WebMercatorCoord<S: RealField> { normalized: Vector2<S> }`. -/
structure WebMercatorCoord (S : Type) where
  normalized : S × S
deriving DecidableEq

/-- Rust: `WebMercatorCoord::to_zoomed_coordinate`.  Returns the normalized
coordinate scaled by `256 * 2^z` when `z ≤ MAX_ZOOM`, `None` otherwise. -/
def to_zoomed_coordinate {S : Type} [LinearOrderedField S]
    (c : WebMercatorCoord S) (z : Nat) : Option (S × S) :=
  if z ≤ MAX_ZOOM then
    let zoom : S := (tileShift z : Nat)
    some (c.normalized.1 * zoom, c.normalized.2 * zoom)
  else
    none

/-- Rust: `WebMercatorCoord::from_zoomed_coordinate`.  `coord.min()` and
`coord.max()` on a `Vector2` are the minimum and maximum of its two
components. -/
def from_zoomed_coordinate {S : Type} [LinearOrderedField S]
    (coord : S × S) (z : Nat) : Option (WebMercatorCoord S) :=
  if MAX_ZOOM < z ∨ min coord.1 coord.2 < 0 then
    none
  else
    let zoom : S := (tileShift z : Nat)
    if max coord.1 coord.2 < zoom then
      some ⟨(coord.1 / zoom, coord.2 / zoom)⟩
    else
      none

/-- Rust: `nalgebra::clamp(value, lo, hi)`, which is
`if value < lo { lo } else if value > hi { hi } else { value }`. -/
def rustClamp {S : Type} [LinearOrder S] (v lo hi : S) : S :=
  if v < lo then lo else if hi < v then hi else v

/-- Rust: `WebMercatorCoord::lat_bound_sin`, the constant
`0.996_272_076_220_75`. -/
noncomputable def lat_bound_sin : ℝ := 0.99627207622075

/-- Rust: `WebMercatorCoord::to_lat_lng`, over exact real arithmetic.
The result triple is `(latitude, longitude, altitude)` in degrees, the
argument order of `WGS84::new`. -/
noncomputable def to_lat_lng (c : WebMercatorCoord ℝ) : ℝ × ℝ × ℝ :=
  (Real.arcsin (rustClamp (1 / ((Real.exp (-c.normalized.2 * 4 * Real.pi) + 1) * (-0.5)) + 1)
      (-lat_bound_sin) lat_bound_sin) * (180 / Real.pi),
   rustClamp (2 * Real.pi * (c.normalized.1 - 0.5)) (-Real.pi) Real.pi * (180 / Real.pi),
   0)

/-! ### Part B: benchmark configuration (octree_benchmark.rs) -/

/-- Rust: `const BATCH_SIZE: usize = 1_000_000;`. -/
def BATCH_SIZE : Nat := 1000000

/-- Rust: the `--num-threads` default,
`std::cmp::max(1, num_cpus::get() - 1)` (octree_benchmark.rs line 71),
as a function of the machine's CPU count.  `num_cpus::get()` returns at
least 1, so the `usize` subtraction cannot underflow and agrees with
truncated `Nat` subtraction. -/
def defaultNumThreads (numCpus : Nat) : Nat := max 1 (numCpus - 1)

/-! ### Part C: the concurrent spatial query and streaming engine

The engine itself (crate `point_viewer`: `iterator.rs`, the octree and
S2-cell indices, and crate `point_cloud_client`) is not part of the
excerpt; only its callers (octree_benchmark.rs, benches/main.rs) are.
The definitions below are therefore modelled from the specification:
query geometry with its three-way node classification (spec section 4.2),
the pruning traversal scheduler (section 4.3), batching and delivery by
the parallel iterator (section 4.4), the client facade (section 4.5)
and the bounded channel (sections 4.4 and 5).  Scalars are rationals,
an exact stand-in for the floating-point coordinates. -/

/-- Modelled from the spec: a 3-dimensional position (section 3, Point). -/
abbrev Vec3 : Type := ℚ × ℚ × ℚ

/-- Modelled from the spec: a point is a position plus named attribute
values; attributes are stored column-wise at batch level (section 3). -/
structure Point where
  position : Vec3
  attrs : List (String × ℚ)
deriving DecidableEq

def vsub (a b : Vec3) : Vec3 := (a.1 - b.1, a.2.1 - b.2.1, a.2.2 - b.2.2)

def vneg (a : Vec3) : Vec3 := (-a.1, -a.2.1, -a.2.2)

def vdot (a b : Vec3) : ℚ := a.1 * b.1 + a.2.1 * b.2.1 + a.2.2 * b.2.2

def vcross (a b : Vec3) : Vec3 :=
  (a.2.1 * b.2.2 - a.2.2 * b.2.1,
   a.2.2 * b.1 - a.1 * b.2.2,
   a.1 * b.2.1 - a.2.1 * b.1)

/-- Modelled from the spec: a half-space `normal ⬝ p + d ≥ 0`
(section 4.2, Frustum). -/
structure Plane where
  normal : Vec3
  d : ℚ
deriving DecidableEq

/-- Modelled from the spec: the six half-space planes of a frustum
(section 4.2). -/
structure FrustumPlanes where
  p0 : Plane
  p1 : Plane
  p2 : Plane
  p3 : Plane
  p4 : Plane
  p5 : Plane
deriving DecidableEq

/-- A 3x3 matrix given by rows, standing in for the oriented box's
rotation (section 4.2, OrientedBox). -/
structure Mat3 where
  r0 : Vec3
  r1 : Vec3
  r2 : Vec3
deriving DecidableEq

def mulVec (m : Mat3) (v : Vec3) : Vec3 := (vdot m.r0 v, vdot m.r1 v, vdot m.r2 v)

/-- Transpose of a rotation matrix; for a rotation this is its inverse,
which is how the spec's "inverse-rotation" point test is realized
(section 4.2). -/
def transpose (m : Mat3) : Mat3 :=
  { r0 := (m.r0.1, m.r1.1, m.r2.1)
    r1 := (m.r0.2.1, m.r1.2.1, m.r2.2.1)
    r2 := (m.r0.2.2, m.r1.2.2, m.r2.2.2) }

/-- Columns of a rotation matrix, the oriented box's local axes. -/
def matCols (m : Mat3) : List Vec3 :=
  [(m.r0.1, m.r1.1, m.r2.1), (m.r0.2.1, m.r1.2.1, m.r2.2.1), (m.r0.2.2, m.r1.2.2, m.r2.2.2)]

/-- Modelled from the spec: a hierarchical spherical cell id, one of 6
faces quad-subdivided along a path (section 4.1, CellIndex). -/
structure CellId where
  face : Fin 6
  path : List (Fin 4)
deriving DecidableEq

/-- Prefix test on quad-subdivision paths (cell ancestry). -/
def pathAncestor : List (Fin 4) → List (Fin 4) → Bool
  | [], _ => true
  | _ :: _, [] => false
  | a :: as, b :: bs => a = b && pathAncestor as bs

/-- Cell `a` is `b` itself or an ancestor of `b` in the cell hierarchy. -/
def cellIsAncestorOrEq (a b : CellId) : Bool :=
  a.face = b.face && pathAncestor a.path b.path

/-- Face of the unit sphere a direction belongs to (dominant axis and
sign), together with the 2-dimensional face coordinates in `[-1, 1]`. -/
def faceOf (p : Vec3) : Fin 6 × (ℚ × ℚ) :=
  let x := p.1
  let y := p.2.1
  let z := p.2.2
  if |y| ≤ |x| ∧ |z| ≤ |x| then
    (if 0 ≤ x then (0, (y / |x|, z / |x|)) else (1, (y / |x|, z / |x|)))
  else if |z| ≤ |y| then
    (if 0 ≤ y then (2, (x / |y|, z / |y|)) else (3, (x / |y|, z / |y|)))
  else
    (if 0 ≤ z then (4, (x / |z|, y / |z|)) else (5, (x / |z|, y / |z|)))

/-- Quad-subdivision path of face coordinates `uv`, starting from the
face square `[-1,1] × [-1,1]`, to the given depth. -/
def quadPath : Nat → (ℚ × ℚ) → (ℚ × ℚ) → (ℚ × ℚ) → List (Fin 4)
  | 0, _, _, _ => []
  | n + 1, uv, ub, vb =>
    let um := (ub.1 + ub.2) / 2
    let vm := (vb.1 + vb.2) / 2
    let hu : Bool := um ≤ uv.1
    let hv : Bool := vm ≤ uv.2
    let child : Fin 4 :=
      match hu, hv with
      | false, false => 0
      | true, false => 1
      | false, true => 2
      | true, true => 3
    child :: quadPath n uv (if hu then (um, ub.2) else (ub.1, um))
      (if hv then (vm, vb.2) else (vb.1, vm))

/-- Modelled from the spec: the point-level cell-union inclusion test is
"the point's containing cell id lookup" (section 4.2): the cell of the
appropriate depth containing the point's direction is compared with the
queried cell. -/
def cellContainsPoint (c : CellId) (p : Vec3) : Bool :=
  let fc := faceOf p
  fc.1 = c.face && quadPath c.path.length fc.2 (-1, 1) (-1, 1) = c.path

/-- Modelled from the spec: the five location-predicate variants with
their literal parameters (sections 4.2 and 6): all points, axis-aligned
box min/max, oriented box center/half-extents/rotation, six frustum
planes, explicit cell-id set. -/
inductive PointLocation where
  | allPoints
  | aabb (lo hi : Vec3)
  | obb (center halfExtents : Vec3) (rotation : Mat3)
  | frustum (planes : FrustumPlanes)
  | cellUnion (cells : List CellId)
deriving DecidableEq

/-- Modelled from the spec: a query is an ordered sequence of requested
attribute names plus a location predicate (sections 3 and 6). -/
structure PointQuery where
  attributes : List String
  location : PointLocation
deriving DecidableEq

/-- Componentwise interval membership, the axis-aligned box containment
test. -/
def aabbContainsPoint (lo hi p : Vec3) : Bool :=
  lo.1 ≤ p.1 && p.1 ≤ hi.1 && lo.2.1 ≤ p.2.1 && p.2.1 ≤ hi.2.1 &&
    lo.2.2 ≤ p.2.2 && p.2.2 ≤ hi.2.2

def planeInside (pl : Plane) (p : Vec3) : Bool := 0 ≤ vdot pl.normal p + pl.d

def frustumContainsPoint (f : FrustumPlanes) (p : Vec3) : Bool :=
  planeInside f.p0 p && planeInside f.p1 p && planeInside f.p2 p &&
    planeInside f.p3 p && planeInside f.p4 p && planeInside f.p5 p

/-- Oriented-box containment via inverse rotation followed by a box test
(section 4.2). -/
def obbContainsPoint (center halfExtents : Vec3) (rotation : Mat3) (p : Vec3) : Bool :=
  aabbContainsPoint (vneg halfExtents) halfExtents (mulVec (transpose rotation) (vsub p center))

/-- Modelled from the spec: the exact per-point inclusion test of each
predicate variant (section 4.2). -/
def pointTest (loc : PointLocation) (p : Vec3) : Bool :=
  match loc with
  | .allPoints => true
  | .aabb lo hi => aabbContainsPoint lo hi p
  | .obb c he r => obbContainsPoint c he r p
  | .frustum f => frustumContainsPoint f p
  | .cellUnion cells => cells.any (fun c => cellContainsPoint c p)

/-- Modelled from the spec: the three-way node classification
(sections 2 and 4.2). -/
inductive NodeRelation where
  | disjoint
  | intersects
  | contains
deriving DecidableEq

/-- Modelled from the spec: a node's bounding volume is an axis-aligned
box for octree nodes and a spherical cell region for cell-index nodes
(section 3). -/
inductive Volume where
  | box (lo hi : Vec3)
  | cell (id : CellId)
deriving DecidableEq

/-- The eight corners of an axis-aligned box. -/
def aabbCorners (lo hi : Vec3) : List Vec3 :=
  [(lo.1, lo.2.1, lo.2.2), (lo.1, lo.2.1, hi.2.2), (lo.1, hi.2.1, lo.2.2),
   (lo.1, hi.2.1, hi.2.2), (hi.1, lo.2.1, lo.2.2), (hi.1, lo.2.1, hi.2.2),
   (hi.1, hi.2.1, lo.2.2), (hi.1, hi.2.1, hi.2.2)]

/-- Interval overlap test per axis: the boxes are disjoint when some
axis separates them. -/
def aabbDisjointAabb (alo ahi blo bhi : Vec3) : Bool :=
  ahi.1 < blo.1 || bhi.1 < alo.1 || ahi.2.1 < blo.2.1 || bhi.2.1 < alo.2.1 ||
    ahi.2.2 < blo.2.2 || bhi.2.2 < alo.2.2

/-- The first box lies fully inside the second. -/
def aabbInsideAabb (alo ahi blo bhi : Vec3) : Bool :=
  blo.1 ≤ alo.1 && ahi.1 ≤ bhi.1 && blo.2.1 ≤ alo.2.1 && ahi.2.1 ≤ bhi.2.1 &&
    blo.2.2 ≤ alo.2.2 && ahi.2.2 ≤ bhi.2.2

/-- Modelled from the spec: AxisAlignedBox node classification
(section 4.2): `Disjoint` when the node box does not overlap the query
box, `Contains` when it is fully inside it, `Intersects` otherwise. -/
def classifyAabbQuery (qlo qhi nlo nhi : Vec3) : NodeRelation :=
  if aabbDisjointAabb nlo nhi qlo qhi then .disjoint
  else if aabbInsideAabb nlo nhi qlo qhi then .contains
  else .intersects

/-- Projection radius of a box with the given half-extents (in its own
frame) onto a direction. -/
def boxRadiusOn (axis he : Vec3) : ℚ := |axis.1| * he.1 + |axis.2.1| * he.2.1 + |axis.2.2| * he.2.2

/-- Separating-axis test between an axis-aligned box and an oriented
box: the candidate axes are the three world axes, the oriented box's
three local axes, and their nine cross products. -/
def satSeparated (nlo nhi center halfExtents : Vec3) (rotation : Mat3) : Bool :=
  let bc : Vec3 := ((nlo.1 + nhi.1) / 2, (nlo.2.1 + nhi.2.1) / 2, (nlo.2.2 + nhi.2.2) / 2)
  let bh : Vec3 := ((nhi.1 - nlo.1) / 2, (nhi.2.1 - nlo.2.1) / 2, (nhi.2.2 - nlo.2.2) / 2)
  let d : Vec3 := vsub center bc
  let world : List Vec3 := [(1, 0, 0), (0, 1, 0), (0, 0, 1)]
  let axes : List Vec3 :=
    world ++ matCols rotation ++
      (world.flatMap (fun w => (matCols rotation).map (fun u => vcross w u)))
  axes.any (fun a =>
    boxRadiusOn a bh + boxRadiusOn (mulVec (transpose rotation) a) halfExtents < |vdot a d|)

/-- Modelled from the spec: OrientedBox node classification via a
separating-axis test (section 4.2); full containment is decided by the
node box's corners. -/
def classifyObbQuery (center halfExtents : Vec3) (rotation : Mat3) (nlo nhi : Vec3) :
    NodeRelation :=
  if satSeparated nlo nhi center halfExtents rotation then .disjoint
  else if (aabbCorners nlo nhi).all (obbContainsPoint center halfExtents rotation) then .contains
  else .intersects

def frustumPlaneList (f : FrustumPlanes) : List Plane := [f.p0, f.p1, f.p2, f.p3, f.p4, f.p5]

/-- Modelled from the spec: Frustum node classification (section 4.2):
`Disjoint` when the node box is entirely outside some plane, `Contains`
when it is inside all planes, `Intersects` otherwise. -/
def classifyFrustumQuery (f : FrustumPlanes) (nlo nhi : Vec3) : NodeRelation :=
  let corners := aabbCorners nlo nhi
  if (frustumPlaneList f).any (fun pl => corners.all (fun p => !planeInside pl p)) then .disjoint
  else if corners.all (frustumContainsPoint f) then .contains
  else .intersects

/-- Modelled from the spec: CellUnion node classification by set
membership, ancestry and overlap of cell ids (section 4.2). -/
def classifyCellUnionCell (cells : List CellId) (nc : CellId) : NodeRelation :=
  if cells.any (fun c => cellIsAncestorOrEq c nc) then .contains
  else if cells.any (fun c => cellIsAncestorOrEq nc c) then .intersects
  else .disjoint

/-- Modelled from the spec: node classification, applied once per
visited node before loading its batch (section 4.2).  Cross-type pairs
(a geometric predicate against a cell volume, or a cell union against a
box volume) are classified conservatively as `Intersects`, which defers
to the exact per-point test; the spec states that CellUnion works
against either index type but gives formulas only for the matching
pairs. -/
def classifyNode (loc : PointLocation) (vol : Volume) : NodeRelation :=
  match loc, vol with
  | .allPoints, _ => .contains
  | .aabb qlo qhi, .box nlo nhi => classifyAabbQuery qlo qhi nlo nhi
  | .obb c he r, .box nlo nhi => classifyObbQuery c he r nlo nhi
  | .frustum f, .box nlo nhi => classifyFrustumQuery f nlo nhi
  | .cellUnion cells, .cell nc => classifyCellUnionCell cells nc
  | .cellUnion _, .box _ _ => .intersects
  | .aabb _ _, .cell _ => .intersects
  | .obb _ _ _, .cell _ => .intersects
  | .frustum _, .cell _ => .intersects

mutual
/-- Modelled from the spec: a spatial-index node owns a bounding volume,
its point data (materialized; the spec's lazy `load_batch` is modelled
as already loaded, since no claim concerns load failures) and its
children (section 3, Node). -/
inductive IndexNode where
  | mk (vol : Volume) (points : List Point) (children : Forest)
/-- A sequence of index nodes: the children of a node, or the roots of
the queried indices (section 3, Spatial Index). -/
inductive Forest where
  | nil
  | cons (t : IndexNode) (ts : Forest)
end

def IndexNode.vol : IndexNode → Volume
  | .mk v _ _ => v

def IndexNode.points : IndexNode → List Point
  | .mk _ p _ => p

def IndexNode.children : IndexNode → Forest
  | .mk _ _ c => c

def Forest.toList : Forest → List IndexNode
  | .nil => []
  | .cons t ts => t :: Forest.toList ts

mutual
def subtreeNodes : IndexNode → List IndexNode
  | .mk v p c => .mk v p c :: forestNodes c
def forestNodes : Forest → List IndexNode
  | .nil => []
  | .cons t ts => subtreeNodes t ++ forestNodes ts
end

mutual
def treePoints : IndexNode → List Point
  | .mk _ p c => p ++ forestPoints c
def forestPoints : Forest → List Point
  | .nil => []
  | .cons t ts => treePoints t ++ forestPoints ts
end

/-- Modelled from the spec: the scheduler's per-item filter mode
(section 4.3): `noFilter` is the spec's `None` (a `Contains` node whose
points are included unconditionally), `perPoint` requests the exact
point test. -/
inductive FilterMode where
  | noFilter
  | perPoint
deriving DecidableEq

mutual
/-- Modelled from the spec: the pruning descent of the traversal
scheduler (section 4.3).  A `Disjoint` node and its whole subtree are
skipped; a `Contains` node and all its descendants are scheduled with no
per-point filtering (containment is inherited, so they can be processed
independently); an `Intersects` node is scheduled for per-point
filtering and its children are recursed into. -/
def traverseNode (loc : PointLocation) : IndexNode → List (IndexNode × FilterMode)
  | .mk v p c =>
    match classifyNode loc v with
    | .disjoint => []
    | .contains => (subtreeNodes (.mk v p c)).map (fun n => (n, FilterMode.noFilter))
    | .intersects => (IndexNode.mk v p c, FilterMode.perPoint) :: traverseForest loc c
def traverseForest (loc : PointLocation) : Forest → List (IndexNode × FilterMode)
  | .nil => []
  | .cons t ts => traverseNode loc t ++ traverseForest loc ts
end

/-- Modelled from the spec: a batch is a columnar chunk, one position
column and one column per requested attribute (section 3, Batch). -/
structure Batch where
  position : List Vec3
  columns : List (String × List ℚ)
deriving DecidableEq

/-- Attribute value of a point by name (0 when absent; no claim
concerns the `AttributeMissingError` path). -/
def attrValue (a : String) (p : Point) : ℚ := (List.lookup a p.attrs).getD 0

/-- Assemble the columnar batch for a chunk of points and the requested
attribute names, preserving the caller's listed order (section 3). -/
def mkBatch (attrs : List String) (pts : List Point) : Batch :=
  { position := pts.map Point.position
    columns := attrs.map (fun a => (a, pts.map (attrValue a))) }

/-- Worker for `chunkList`, structurally recursive on a fuel argument
that bounds the list length. -/
def chunkFuel {α : Type} (k : Nat) : Nat → List α → List (List α)
  | _, [] => []
  | 0, l => [l]
  | fuel + 1, x :: xs => (x :: List.take (k - 1) xs) :: chunkFuel k fuel (List.drop (k - 1) xs)

/-- Split a list into consecutive chunks of at most `k` elements
(`k ≥ 1`); the spec's re-chunking of surviving points into batches
capped at the maximum batch size (section 4.4). -/
def chunkList {α : Type} (k : Nat) (l : List α) : List (List α) :=
  chunkFuel k l.length l

/-- Per-point filtering of a work item's points (section 4.4): a
`Contains` node's points pass unconditionally, an `Intersects` node's
points go through the exact test. -/
def filterPoints (loc : PointLocation) (fm : FilterMode) (pts : List Point) : List Point :=
  match fm with
  | .noFilter => pts
  | .perPoint => pts.filter (fun p => pointTest loc p.position)

/-- Modelled from the spec: a worker's processing of one scheduled work
item (section 4.4): load the node's points, filter when requested, and
re-chunk the survivors into batches capped at `bs` points. -/
def processItem (loc : PointLocation) (attrs : List String) (bs : Nat)
    (item : IndexNode × FilterMode) : List Batch :=
  (chunkList bs (filterPoints loc item.2 item.1.points)).map (mkBatch attrs)

/-- Modelled from the spec: the full sequence of batches a query
produces for delivery to the consumer, in one linearization (batch
order across workers is unspecified; all claims below are order
independent or about this linearization). -/
def runQueryBatches (roots : Forest) (q : PointQuery) (bs : Nat) : List Batch :=
  (traverseForest q.location roots).flatMap (processItem q.location q.attributes bs)

/-- The stream of delivered point positions, in delivery order. -/
def deliveredPositions (roots : Forest) (q : PointQuery) (bs : Nat) : List Vec3 :=
  (runQueryBatches roots q bs).flatMap Batch.position

/-- Modelled from the spec: the consumer loop (section 4.4).  Invokes
the callback on each batch in order; on the first callback error it
stops.  Returns the list of batches the callback was invoked on,
together with the overall result. -/
def runTrace {E : Type} (cb : Batch → Except E Unit) : List Batch → List Batch × Except E Unit
  | [] => ([], Except.ok ())
  | b :: rest =>
    match cb b with
    | Except.error e => ([b], Except.error e)
    | Except.ok _ =>
      let r := runTrace cb rest
      (b :: r.1, r.2)

/-- Modelled from the spec: the client facade over one or more spatial
indices, with its configured maximum batch size (section 4.5). -/
structure PointCloudClient where
  indices : Forest
  batchSize : Nat

/-- Modelled from the spec: the public query interface
`for_each_point_data(query, callback) -> Result<(), Error>`
(section 4.5), with the caller-defined callback error type propagated
verbatim (section 7). -/
def for_each_point_data {E : Type} (c : PointCloudClient) (q : PointQuery)
    (cb : Batch → Except E Unit) : Except E Unit :=
  (runTrace cb (runQueryBatches c.indices q c.batchSize)).2

/-- Modelled from the spec: the observable state of the bounded
producer/consumer channel (sections 4.4 and 5): batches not yet sent,
batches in flight in the channel, and batches already received by the
consumer. -/
structure PipeState where
  toSend : List Batch
  channel : List Batch
  received : List Batch

/-- Modelled from the spec: one transition of the bounded channel.  A
producer may send only while the channel holds fewer than `bufSize`
batches (a full channel blocks the producer); the consumer may receive
the oldest in-flight batch. -/
inductive PipeStep (bufSize : Nat) : PipeState → PipeState → Prop
  | send (b : Batch) (rest ch rcv : List Batch) (h : ch.length < bufSize) :
      PipeStep bufSize ⟨b :: rest, ch, rcv⟩ ⟨rest, ch ++ [b], rcv⟩
  | recv (ts : List Batch) (b : Batch) (ch rcv : List Batch) :
      PipeStep bufSize ⟨ts, b :: ch, rcv⟩ ⟨ts, ch, rcv ++ [b]⟩

/-- States reachable by the bounded channel during one query execution,
starting from the query's batch sequence with an empty channel. -/
inductive PipeReachable (bufSize : Nat) (roots : Forest) (q : PointQuery) (bs : Nat) :
    PipeState → Prop
  | init : PipeReachable bufSize roots q bs ⟨runQueryBatches roots q bs, [], []⟩
  | step {s s' : PipeState} : PipeReachable bufSize roots q bs s → PipeStep bufSize s s' →
      PipeReachable bufSize roots q bs s'

/-- Number of points held by in-flight, undelivered batches. -/
def inFlightPoints (s : PipeState) : Nat := (s.channel.map (fun b => b.position.length)).sum

/-- Modelled from the spec: the Query Geometry contract that containment
is inherited by children (section 4.3), stated for a collection of
nodes. -/
def HerNodes (loc : PointLocation) (l : List IndexNode) : Prop :=
  ∀ t ∈ l, classifyNode loc t.vol = NodeRelation.contains →
    ∀ c ∈ Forest.toList t.children, classifyNode loc c.vol = NodeRelation.contains

instance (loc : PointLocation) (l : List IndexNode) : Decidable (HerNodes loc l) := by
  unfold HerNodes
  infer_instance

deriving instance DecidableEq for IndexNode

/-- Sample data used by the witnesses below: a two-node octree index
holding one point per node. -/
def samplePointA : Point := { position := (0, 0, 0), attrs := [("color", 1)] }

def samplePointB : Point := { position := (1, 2, 3), attrs := [("color", 2)] }

def sampleLeaf : IndexNode := .mk (.box (0, 0, 0) (1, 1, 1)) [samplePointA] .nil

def sampleRoot : IndexNode :=
  .mk (.box (0, 0, 0) (2, 2, 2)) [samplePointB] (.cons sampleLeaf .nil)

def sampleForest : Forest := .cons sampleRoot .nil

def sampleQuery : PointQuery := { attributes := ["color"], location := .allPoints }

/-! ### Helper lemmas -/

theorem flatMap_congr_mem {α β : Type} {l : List α} {f g : α → List β}
    (h : ∀ x ∈ l, f x = g x) : l.flatMap f = l.flatMap g := by
  induction l with
  | nil => rfl
  | cons x xs ih =>
    simp only [List.flatMap_cons, h x (List.mem_cons_self x xs)]
    rw [ih (fun y hy => h y (List.mem_cons_of_mem x hy))]

theorem chunkFuel_flatten {α : Type} (k fuel : Nat) :
    ∀ l : List α, l.length ≤ fuel → (chunkFuel k fuel l).flatten = l := by
  induction fuel with
  | zero =>
    intro l hl
    cases l with
    | nil => rfl
    | cons x xs => simp at hl
  | succ n ih =>
    intro l hl
    cases l with
    | nil => rfl
    | cons x xs =>
      simp only [chunkFuel, List.flatten_cons]
      rw [ih (List.drop (k - 1) xs) (by simp at hl ⊢; omega)]
      rw [List.cons_append, List.take_append_drop]

theorem chunkList_flatten {α : Type} (k : Nat) (l : List α) : (chunkList k l).flatten = l :=
  chunkFuel_flatten k l.length l le_rfl

theorem chunkFuel_mem_length {α : Type} (k fuel : Nat) (hk : 0 < k) :
    ∀ l c : List α, l.length ≤ fuel → c ∈ chunkFuel k fuel l → c.length ≤ k := by
  induction fuel with
  | zero =>
    intro l c hl hc
    cases l with
    | nil => simp [chunkFuel] at hc
    | cons x xs => simp at hl
  | succ n ih =>
    intro l c hl hc
    cases l with
    | nil => simp [chunkFuel] at hc
    | cons x xs =>
      simp only [chunkFuel, List.mem_cons] at hc
      rcases hc with rfl | hc
      · simp [List.length_take]
        omega
      · exact ih (List.drop (k - 1) xs) c (by simp at hl ⊢; omega) hc

theorem chunkList_mem_length {α : Type} (k : Nat) (hk : 0 < k) (l c : List α)
    (hc : c ∈ chunkList k l) : c.length ≤ k :=
  chunkFuel_mem_length k l.length hk l c le_rfl hc

theorem processItem_positions (loc : PointLocation) (attrs : List String) (bs : Nat)
    (item : IndexNode × FilterMode) :
    (processItem loc attrs bs item).flatMap Batch.position
      = (filterPoints loc item.2 item.1.points).map Point.position := by
  unfold processItem
  rw [List.flatMap_map]
  calc (chunkList bs (filterPoints loc item.2 item.1.points)).flatMap
        (fun c => (mkBatch attrs c).position)
      = ((chunkList bs (filterPoints loc item.2 item.1.points)).map
          (List.map Point.position)).flatten := rfl
    _ = (chunkList bs (filterPoints loc item.2 item.1.points)).flatten.map Point.position :=
        (List.map_flatten ..).symm
    _ = (filterPoints loc item.2 item.1.points).map Point.position := by
        rw [chunkList_flatten]

theorem deliveredPositions_eq (roots : Forest) (q : PointQuery) (bs : Nat) :
    deliveredPositions roots q bs
      = (traverseForest q.location roots).flatMap
          (fun it => (filterPoints q.location it.2 it.1.points).map Point.position) := by
  unfold deliveredPositions runQueryBatches
  rw [List.flatMap_assoc]
  exact flatMap_congr_mem (fun it _ => processItem_positions q.location q.attributes bs it)

theorem classifyNode_allPoints (v : Volume) :
    classifyNode PointLocation.allPoints v = NodeRelation.contains := by
  cases v <;> rfl

theorem traverse_allPoints (t : IndexNode) :
    traverseNode PointLocation.allPoints t
      = (subtreeNodes t).map (fun n => (n, FilterMode.noFilter)) := by
  cases t with
  | mk v p c => rw [traverseNode, classifyNode_allPoints]

theorem traverseForest_allPoints : ∀ ts : Forest,
    traverseForest PointLocation.allPoints ts
      = (forestNodes ts).map (fun n => (n, FilterMode.noFilter))
  | .nil => rfl
  | .cons t ts => by
    rw [traverseForest, traverse_allPoints, traverseForest_allPoints ts, forestNodes,
      List.map_append]

mutual
theorem treePoints_eq : ∀ t : IndexNode, treePoints t = (subtreeNodes t).flatMap IndexNode.points
  | .mk v p c => by
    rw [treePoints, subtreeNodes, List.flatMap_cons, forestPoints_eq c]
    rfl
theorem forestPoints_eq : ∀ ts : Forest,
    forestPoints ts = (forestNodes ts).flatMap IndexNode.points
  | .nil => rfl
  | .cons t ts => by
    rw [forestPoints, forestNodes, List.flatMap_append, treePoints_eq t, forestPoints_eq ts]
end

theorem mem_runQueryBatches (roots : Forest) (q : PointQuery) (bs : Nat) (b : Batch)
    (hb : b ∈ runQueryBatches roots q bs) :
    ∃ item ∈ traverseForest q.location roots,
      ∃ ch ∈ chunkList bs (filterPoints q.location item.2 item.1.points),
        b = mkBatch q.attributes ch := by
  unfold runQueryBatches at hb
  obtain ⟨item, hitem, hbp⟩ := List.mem_flatMap.mp hb
  unfold processItem at hbp
  obtain ⟨ch, hch, hmk⟩ := List.mem_map.mp hbp
  exact ⟨item, hitem, ch, hch, hmk.symm⟩

/-- Every batch a query produces has its point count capped by the
configured maximum batch size; shared between the batch-invariant claim
and the backpressure claim. -/
theorem runQueryBatches_position_length_le (roots : Forest) (q : PointQuery) (bs : Nat)
    (hbs : 0 < bs) (b : Batch) (hb : b ∈ runQueryBatches roots q bs) :
    b.position.length ≤ bs := by
  obtain ⟨item, _, ch, hch, rfl⟩ := mem_runQueryBatches roots q bs b hb
  have hlen : ch.length ≤ bs := chunkList_mem_length bs hbs _ ch hch
  simpa [mkBatch] using hlen

/-! ### Claim theorems for the batch invariant and the AllPoints query -/

/-- C1: every batch delivered to the query callback satisfies the batch
invariant: its point count is at most the configured maximum batch size,
and the position column and every requested attribute column have equal
length. -/
theorem delivered_batches_respect_invariant (roots : Forest) (q : PointQuery) (bs : Nat)
    (hbs : 0 < bs) (b : Batch) (hb : b ∈ runQueryBatches roots q bs) :
    b.position.length ≤ bs ∧ ∀ col ∈ b.columns, col.2.length = b.position.length := by
  refine ⟨runQueryBatches_position_length_le roots q bs hbs b hb, ?_⟩
  obtain ⟨item, _, ch, hch, rfl⟩ := mem_runQueryBatches roots q bs b hb
  intro col hcol
  simp only [mkBatch, List.mem_map] at hcol
  obtain ⟨a, _, rfl⟩ := hcol
  simp [mkBatch]

/-- Witness for C1 at the benchmark configuration `BATCH_SIZE`. -/
theorem delivered_batches_respect_invariant_witness :
    Batch.mk [(1, 2, 3)] [("color", [2])] ∈ runQueryBatches sampleForest sampleQuery BATCH_SIZE ∧
      (Batch.mk [(1, 2, 3)] [("color", [2])]).position.length ≤ BATCH_SIZE ∧
      ∀ col ∈ (Batch.mk [(1, 2, 3)] [("color", [2])]).columns,
        col.2.length = (Batch.mk [(1, 2, 3)] [("color", [2])]).position.length :=
  ⟨by decide,
    delivered_batches_respect_invariant sampleForest sampleQuery BATCH_SIZE (by decide)
      (Batch.mk [(1, 2, 3)] [("color", [2])]) (by decide)⟩

/-- C2: an `AllPoints` query delivers, across all callback invocations,
exactly the points stored in the queried indices: the delivered position
stream equals the stored position stream (so each stored point instance
is delivered exactly once), and the total delivered count equals the
total stored count. -/
theorem all_points_delivers_every_point_once (roots : Forest) (attrs : List String) (bs : Nat) :
    deliveredPositions roots ⟨attrs, PointLocation.allPoints⟩ bs
        = (forestPoints roots).map Point.position ∧
      ((runQueryBatches roots ⟨attrs, PointLocation.allPoints⟩ bs).map
        (fun b => b.position.length)).sum = (forestPoints roots).length := by
  have h1 : deliveredPositions roots ⟨attrs, PointLocation.allPoints⟩ bs
      = (forestPoints roots).map Point.position := by
    rw [deliveredPositions_eq, traverseForest_allPoints, List.flatMap_map, forestPoints_eq]
    show (forestNodes roots).flatMap (fun n => n.points.map Point.position) = _
    rw [List.map_flatMap]
  refine ⟨h1, ?_⟩
  have h2 : (deliveredPositions roots ⟨attrs, PointLocation.allPoints⟩ bs).length
      = ((runQueryBatches roots ⟨attrs, PointLocation.allPoints⟩ bs).map
          (fun b => b.position.length)).sum := by
    unfold deliveredPositions
    rw [List.length_flatMap]
    rfl
  rw [← h2, h1, List.length_map]

/-! ### Lemmas about the traversal scheduler and Disjoint pruning -/

theorem self_mem_subtreeNodes : ∀ t : IndexNode, t ∈ subtreeNodes t
  | .mk v p c => by rw [subtreeNodes]; exact List.mem_cons_self _ _

mutual
theorem mem_subtree_trans : ∀ (t : IndexNode) (n m : IndexNode),
    n ∈ subtreeNodes t → m ∈ subtreeNodes n → m ∈ subtreeNodes t
  | .mk v p c => by
    intro n m hn hm
    rw [subtreeNodes] at hn ⊢
    rcases List.mem_cons.mp hn with rfl | hn
    · rw [subtreeNodes] at hm
      exact hm
    · exact List.mem_cons_of_mem _ (mem_forest_trans c n m hn hm)
theorem mem_forest_trans : ∀ (ts : Forest) (n m : IndexNode),
    n ∈ forestNodes ts → m ∈ subtreeNodes n → m ∈ forestNodes ts
  | .nil => by intro n m hn _; rw [forestNodes] at hn; exact absurd hn (List.not_mem_nil n)
  | .cons t ts => by
    intro n m hn hm
    rw [forestNodes] at hn ⊢
    rcases List.mem_append.mp hn with hn | hn
    · exact List.mem_append_left _ (mem_subtree_trans t n m hn hm)
    · exact List.mem_append_right _ (mem_forest_trans ts n m hn hm)
end

mutual
theorem mem_traverseNode_subtree (loc : PointLocation) : ∀ (t : IndexNode)
    (m : IndexNode) (fm : FilterMode), (m, fm) ∈ traverseNode loc t → m ∈ subtreeNodes t
  | .mk v p c => by
    intro m fm hm
    rw [traverseNode] at hm
    rcases h : classifyNode loc (IndexNode.mk v p c).vol with _ | _ | _ <;>
      rw [IndexNode.vol] at h <;> rw [h] at hm
    · exact absurd hm (List.not_mem_nil _)
    · rcases List.mem_cons.mp hm with heq | hm
      · rw [Prod.mk.injEq] at heq
        rw [heq.1]
        exact self_mem_subtreeNodes _
      · rw [subtreeNodes]
        exact List.mem_cons_of_mem _ (mem_traverseForest_subtree loc c m fm hm)
    · obtain ⟨n, hn, heq⟩ := List.mem_map.mp hm
      rw [Prod.mk.injEq] at heq
      rw [← heq.1]
      exact hn
theorem mem_traverseForest_subtree (loc : PointLocation) : ∀ (ts : Forest)
    (m : IndexNode) (fm : FilterMode), (m, fm) ∈ traverseForest loc ts → m ∈ forestNodes ts
  | .nil => by intro m fm hm; rw [traverseForest] at hm; exact absurd hm (List.not_mem_nil _)
  | .cons t ts => by
    intro m fm hm
    rw [traverseForest] at hm
    rw [forestNodes]
    rcases List.mem_append.mp hm with hm | hm
    · exact List.mem_append_left _ (mem_traverseNode_subtree loc t m fm hm)
    · exact List.mem_append_right _ (mem_traverseForest_subtree loc ts m fm hm)
end

theorem herNodes_mono {loc : PointLocation} {l l' : List IndexNode} (h : HerNodes loc l)
    (hsub : l' ⊆ l) : HerNodes loc l' :=
  fun t ht => h t (hsub ht)

theorem toList_subset_forestNodes : ∀ ts : Forest, Forest.toList ts ⊆ forestNodes ts
  | .nil => by intro x hx; exact absurd hx (List.not_mem_nil x)
  | .cons t ts => by
    intro x hx
    rw [Forest.toList] at hx
    rw [forestNodes]
    rcases List.mem_cons.mp hx with rfl | hx
    · exact List.mem_append_left _ (self_mem_subtreeNodes x)
    · exact List.mem_append_right _ (toList_subset_forestNodes ts hx)

theorem subtreeNodes_children_subset : ∀ (v : Volume) (p : List Point) (c : Forest),
    forestNodes c ⊆ subtreeNodes (.mk v p c) := by
  intro v p c x hx
  rw [subtreeNodes]
  exact List.mem_cons_of_mem _ hx

mutual
/-- Within the Query Geometry contract (containment inherited by
children), every node in the subtree of a `Contains` node is itself
classified `Contains`. -/
theorem contains_prop_tree (loc : PointLocation) : ∀ (t : IndexNode),
    HerNodes loc (subtreeNodes t) → classifyNode loc t.vol = NodeRelation.contains →
    ∀ n ∈ subtreeNodes t, classifyNode loc n.vol = NodeRelation.contains
  | .mk v p c => by
    intro hher hcls n hn
    rw [subtreeNodes] at hn
    rcases List.mem_cons.mp hn with rfl | hn
    · exact hcls
    · refine contains_prop_forest loc c
        (herNodes_mono hher (subtreeNodes_children_subset v p c)) ?_ n hn
      intro r hr
      exact hher (IndexNode.mk v p c) (self_mem_subtreeNodes _) hcls r hr
theorem contains_prop_forest (loc : PointLocation) : ∀ (ts : Forest),
    HerNodes loc (forestNodes ts) →
    (∀ r ∈ Forest.toList ts, classifyNode loc r.vol = NodeRelation.contains) →
    ∀ n ∈ forestNodes ts, classifyNode loc n.vol = NodeRelation.contains
  | .nil => by intro _ _ n hn; rw [forestNodes] at hn; exact absurd hn (List.not_mem_nil n)
  | .cons t ts => by
    intro hher hroots n hn
    rw [forestNodes] at hn hher
    rcases List.mem_append.mp hn with hn | hn
    · exact contains_prop_tree loc t (herNodes_mono hher (List.subset_append_left _ _))
        (hroots t (by rw [Forest.toList]; exact List.mem_cons_self _ _)) n hn
    · refine contains_prop_forest loc ts
        (herNodes_mono hher (List.subset_append_right _ _)) ?_ n hn
      intro r hr
      exact hroots r (by rw [Forest.toList]; exact List.mem_cons_of_mem _ hr)
end

mutual
/-- Within one subtree: a node classified `Disjoint` contributes
nothing of its subtree to the scheduled worklist. -/
theorem disjoint_prune_tree (loc : PointLocation) (n m : IndexNode) (fm : FilterMode) :
    ∀ t : IndexNode, HerNodes loc (subtreeNodes t) → (subtreeNodes t).Nodup →
      n ∈ subtreeNodes t → classifyNode loc n.vol = NodeRelation.disjoint →
      m ∈ subtreeNodes n → (m, fm) ∉ traverseNode loc t
  | .mk v p c => by
    intro hher hnd hn hdis hm hmem
    rw [traverseNode] at hmem
    rcases h : classifyNode loc v with _ | _ | _ <;> rw [h] at hmem
    · exact absurd hmem (List.not_mem_nil _)
    · rcases List.mem_cons.mp hmem with heq | hmem
      · rw [Prod.mk.injEq] at heq
        rw [subtreeNodes] at hn
        rcases List.mem_cons.mp hn with rfl | hn
        · rw [IndexNode.vol, h] at hdis
          exact absurd hdis (by decide)
        · rw [heq.1] at hm
          have hTin := mem_forest_trans c n _ hn hm
          rw [subtreeNodes] at hnd
          exact absurd hTin (List.nodup_cons.mp hnd).1
      · rw [subtreeNodes] at hn
        rcases List.mem_cons.mp hn with rfl | hn
        · rw [IndexNode.vol, h] at hdis
          exact absurd hdis (by decide)
        · refine disjoint_prune_forest loc n m fm c
            (herNodes_mono hher (subtreeNodes_children_subset v p c)) ?_ hn hdis hm hmem
          rw [subtreeNodes] at hnd
          exact (List.nodup_cons.mp hnd).2
    · have hcont := contains_prop_tree loc (.mk v p c) hher (by rw [IndexNode.vol]; exact h) n hn
      rw [hdis] at hcont
      exact absurd hcont (by decide)
/-- Within a forest of subtrees: a node classified `Disjoint`
contributes nothing of its subtree to the scheduled worklist. -/
theorem disjoint_prune_forest (loc : PointLocation) (n m : IndexNode) (fm : FilterMode) :
    ∀ ts : Forest, HerNodes loc (forestNodes ts) → (forestNodes ts).Nodup →
      n ∈ forestNodes ts → classifyNode loc n.vol = NodeRelation.disjoint →
      m ∈ subtreeNodes n → (m, fm) ∉ traverseForest loc ts
  | .nil => by
    intro _ _ hn _ _ _
    rw [forestNodes] at hn
    exact absurd hn (List.not_mem_nil n)
  | .cons t ts => by
    intro hher hnd hn hdis hm hmem
    rw [traverseForest] at hmem
    rw [forestNodes] at hher hnd hn
    have hnd' := List.nodup_append.mp hnd
    rcases List.mem_append.mp hmem with hmem | hmem <;> rcases List.mem_append.mp hn with hn | hn
    · exact disjoint_prune_tree loc n m fm t (herNodes_mono hher (List.subset_append_left _ _))
        hnd'.1 hn hdis hm hmem
    · have hmt := mem_traverseNode_subtree loc t m fm hmem
      have hmts := mem_forest_trans ts n m hn hm
      exact absurd hmts (hnd'.2.2 hmt)
    · have hmt := mem_subtree_trans t n m hn hm
      have hmts := mem_traverseForest_subtree loc ts m fm hmem
      exact absurd hmts (hnd'.2.2 hmt)
    · exact disjoint_prune_forest loc n m fm ts
        (herNodes_mono hher (List.subset_append_right _ _)) hnd'.2.1 hn hdis hm hmem
end

/-- C3: under the Query Geometry contract that containment is inherited
by children, a node classified `Disjoint` never has any node of its
subtree scheduled, and delivered points come exclusively from scheduled
work items, so no point of the node or of its descendants is ever
delivered to the callback. -/
theorem disjoint_subtree_never_delivered (loc : PointLocation) (roots : Forest)
    (attrs : List String) (bs : Nat) (n m : IndexNode)
    (hher : HerNodes loc (forestNodes roots)) (hnd : (forestNodes roots).Nodup)
    (hn : n ∈ forestNodes roots) (hdis : classifyNode loc n.vol = NodeRelation.disjoint)
    (hm : m ∈ subtreeNodes n) :
    (∀ fm, (m, fm) ∉ traverseForest loc roots) ∧
      deliveredPositions roots ⟨attrs, loc⟩ bs
        = (traverseForest loc roots).flatMap
            (fun it => (filterPoints loc it.2 it.1.points).map Point.position) :=
  ⟨fun fm => disjoint_prune_forest loc n m fm roots hher hnd hn hdis hm,
   deliveredPositions_eq roots ⟨attrs, loc⟩ bs⟩

/-- Witness for C3: an axis-aligned box query disjoint from the sample
index never schedules the leaf under the disjoint root. -/
theorem disjoint_subtree_never_delivered_witness :
    (sampleLeaf, FilterMode.perPoint)
      ∉ traverseForest (PointLocation.aabb (5, 5, 5) (6, 6, 6)) sampleForest :=
  (disjoint_subtree_never_delivered (PointLocation.aabb (5, 5, 5) (6, 6, 6)) sampleForest
    ["color"] 2 sampleRoot sampleLeaf (by decide) (by decide) (by decide) (by decide)
    (by decide)).1 FilterMode.perPoint

theorem runTrace_split {E : Type} (cb : Batch → Except E Unit) (e : E) (b : Batch)
    (hb : cb b = Except.error e) :
    ∀ pre : List Batch, ∀ post : List Batch, (∀ x ∈ pre, cb x = Except.ok ()) →
      runTrace cb (pre ++ b :: post) = (pre ++ [b], Except.error e)
  | [], post, _ => by
    rw [List.nil_append, runTrace, hb]
    rfl
  | x :: pre, post, hpre => by
    rw [List.cons_append, runTrace, hpre x (List.mem_cons_self x pre),
      runTrace_split cb e b hb pre post (fun y hy => hpre y (List.mem_cons_of_mem x hy))]
    rfl

/-- C4: if the callback fails for the first time on the `N`-th delivered
batch (`N = pre.length + 1`), the query call returns exactly that error,
and the callback is invoked on exactly the first `N` batches and never
again. -/
theorem callback_error_propagates_and_stops {E : Type} (c : PointCloudClient) (q : PointQuery)
    (cb : Batch → Except E Unit) (pre post : List Batch) (b : Batch) (e : E)
    (hsplit : runQueryBatches c.indices q c.batchSize = pre ++ b :: post)
    (hpre : ∀ x ∈ pre, cb x = Except.ok ()) (hb : cb b = Except.error e) :
    for_each_point_data c q cb = Except.error e ∧
      (runTrace cb (runQueryBatches c.indices q c.batchSize)).1 = pre ++ [b] := by
  unfold for_each_point_data
  rw [hsplit, runTrace_split cb e b hb pre post hpre]
  exact ⟨rfl, rfl⟩

/-- Witness for C4: a callback that fails on its first invocation makes
the query call return that error. -/
theorem callback_error_propagates_and_stops_witness :
    for_each_point_data ⟨sampleForest, 2⟩ sampleQuery
        (fun _ => (Except.error "stop" : Except String Unit)) = Except.error "stop" :=
  (callback_error_propagates_and_stops ⟨sampleForest, 2⟩ sampleQuery
    (fun _ => (Except.error "stop" : Except String Unit)) []
    [Batch.mk [(0, 0, 0)] [("color", [1])]] (Batch.mk [(1, 2, 3)] [("color", [2])]) "stop"
    (by decide) (fun x hx => absurd hx (List.not_mem_nil x)) rfl).1

theorem pipe_invariant (bufSize : Nat) (roots : Forest) (q : PointQuery) (bs : Nat)
    (hbs : 0 < bs) (s : PipeState) (hr : PipeReachable bufSize roots q bs s) :
    (∀ b ∈ s.toSend, b.position.length ≤ bs) ∧ (∀ b ∈ s.channel, b.position.length ≤ bs) ∧
      s.channel.length ≤ bufSize := by
  induction hr with
  | init =>
    exact ⟨fun b hb => runQueryBatches_position_length_le roots q bs hbs b hb,
      fun b hb => absurd hb (List.not_mem_nil b), by simp⟩
  | step hr hstep ih =>
    rcases hstep with ⟨b, rest, ch, rcv, hlen⟩ | ⟨ts, b, ch, rcv⟩
    · refine ⟨fun x hx => ih.1 x (List.mem_cons_of_mem b hx), ?_, by simp; omega⟩
      intro x hx
      rcases List.mem_append.mp hx with hx | hx
      · exact ih.2.1 x hx
      · rw [List.mem_singleton.mp hx]
        exact ih.1 b (List.mem_cons_self b rest)
    · exact ⟨ih.1, fun x hx => ih.2.1 x (List.mem_cons_of_mem b hx),
        le_trans (by simp) ih.2.2⟩

theorem sum_lengths_le (bs : Nat) : ∀ l : List Batch, (∀ b ∈ l, b.position.length ≤ bs) →
    (l.map (fun b => b.position.length)).sum ≤ l.length * bs
  | [], _ => by simp
  | b :: l, h => by
    rw [List.map_cons, List.sum_cons, List.length_cons, Nat.succ_mul, Nat.add_comm (l.length * bs)]
    exact Nat.add_le_add (h b (List.mem_cons_self b l))
      (sum_lengths_le bs l (fun x hx => h x (List.mem_cons_of_mem b hx)))

/-- C5: at every reachable moment of a query execution, the points held
by in-flight undelivered batches in the bounded channel never exceed
`bufSize * bs`: the send transition is only enabled while the channel
holds fewer than `bufSize` batches, so a producer facing a full channel
blocks until the consumer drains. -/
theorem inflight_points_bounded (bufSize : Nat) (roots : Forest) (q : PointQuery) (bs : Nat)
    (hbs : 0 < bs) (s : PipeState) (hr : PipeReachable bufSize roots q bs s) :
    inFlightPoints s ≤ bufSize * bs := by
  obtain ⟨_, hch, hlen⟩ := pipe_invariant bufSize roots q bs hbs s hr
  calc inFlightPoints s ≤ s.channel.length * bs := sum_lengths_le bs s.channel hch
    _ ≤ bufSize * bs := Nat.mul_le_mul_right bs hlen

/-- Witness for C5: after one send step of the sample query the
in-flight points stay within the bound. -/
theorem inflight_points_bounded_witness :
    inFlightPoints ⟨[Batch.mk [(0, 0, 0)] [("color", [1])]],
      [Batch.mk [(1, 2, 3)] [("color", [2])]], []⟩ ≤ 4 * 2 := by
  refine inflight_points_bounded 4 sampleForest sampleQuery 2 (by decide) _ ?_
  refine PipeReachable.step PipeReachable.init ?_
  have h : runQueryBatches sampleForest sampleQuery 2
      = [Batch.mk [(1, 2, 3)] [("color", [2])], Batch.mk [(0, 0, 0)] [("color", [1])]] := by
    decide
  rw [h]
  exact PipeStep.send (Batch.mk [(1, 2, 3)] [("color", [2])])
    [Batch.mk [(0, 0, 0)] [("color", [1])]] [] [] (by decide)

/-- C6: the client's public query interface is
`for_each_point_data(query, callback)` returning `Result<(), E>`: a
query consists of exactly an ordered sequence of attribute names and a
location predicate drawn from the five variants, and every call returns
either success or an error value. -/
theorem query_interface_shape :
    (∀ q : PointQuery, q = PointQuery.mk q.attributes q.location) ∧
      (∀ loc : PointLocation, loc = PointLocation.allPoints ∨
        (∃ lo hi, loc = PointLocation.aabb lo hi) ∨
        (∃ ctr he rot, loc = PointLocation.obb ctr he rot) ∨
        (∃ planes, loc = PointLocation.frustum planes) ∨
        (∃ cells, loc = PointLocation.cellUnion cells)) ∧
      ∀ (E : Type) (c : PointCloudClient) (q : PointQuery) (cb : Batch → Except E Unit),
        for_each_point_data c q cb = Except.ok () ∨
          ∃ e, for_each_point_data c q cb = Except.error e := by
  refine ⟨fun q => rfl, fun loc => ?_, fun E c q cb => ?_⟩
  · cases loc with
    | allPoints => exact Or.inl rfl
    | aabb lo hi => exact Or.inr (Or.inl ⟨lo, hi, rfl⟩)
    | obb ctr he rot => exact Or.inr (Or.inr (Or.inl ⟨ctr, he, rot, rfl⟩))
    | frustum planes => exact Or.inr (Or.inr (Or.inr (Or.inl ⟨planes, rfl⟩)))
    | cellUnion cells => exact Or.inr (Or.inr (Or.inr (Or.inr ⟨cells, rfl⟩)))
  · rcases h : for_each_point_data c q cb with e | u
    · exact Or.inr ⟨e, rfl⟩
    · exact Or.inl rfl

/-- C7 counterexample: on a machine whose available parallelism is one,
the default worker count is not `parallelism - 1 = 0`; the code takes
`max(1, cpus - 1)`, which is `1` there. -/
theorem default_threads_not_sub_one : ¬ defaultNumThreads 1 = 1 - 1 := by decide

/-- C7 (amended): when no worker thread count is configured, the pool
defaults to `available parallelism - 1` on machines with at least two
CPUs, and to `1` (not `0`) on a machine whose available parallelism is
one. -/
theorem default_threads_amended :
    (∀ n : Nat, 2 ≤ n → defaultNumThreads n = n - 1) ∧ defaultNumThreads 1 = 1 := by
  refine ⟨fun n hn => ?_, rfl⟩
  unfold defaultNumThreads
  omega

/-- Witness for the amended C7 on an 8-CPU machine. -/
theorem default_threads_amended_witness : defaultNumThreads 8 = 7 :=
  default_threads_amended.1 8 (by decide)

/-! ### Claim theorems for the Web Mercator utility -/

theorem tileShift_eq {z : Nat} (hz : z ≤ MAX_ZOOM) : tileShift z = 256 * 2 ^ z := by
  unfold tileShift TILE_SIZE
  apply Nat.mod_eq_of_lt
  have h1 : 2 ^ z ≤ 2 ^ 23 := Nat.pow_le_pow_right (by decide) hz
  have h2 : (256 : Nat) * 2 ^ 23 < 2 ^ 32 := by decide
  have h3 : (256 : Nat) * 2 ^ z ≤ 256 * 2 ^ 23 := Nat.mul_le_mul_left 256 h1
  omega

/-- C8: for every Web Mercator coordinate whose normalized components
lie in `[0, 1)` and every zoom level `z ≤ MAX_ZOOM`,
`to_zoomed_coordinate` succeeds, and `from_zoomed_coordinate` at the
same zoom level recovers the original coordinate exactly. -/
theorem zoomed_coordinate_roundtrip (S : Type) [LinearOrderedField S]
    (c : WebMercatorCoord S) (z : Nat)
    (h0x : 0 ≤ c.normalized.1) (h1x : c.normalized.1 < 1)
    (h0y : 0 ≤ c.normalized.2) (h1y : c.normalized.2 < 1) (hz : z ≤ MAX_ZOOM) :
    ∃ v, to_zoomed_coordinate c z = some v ∧ from_zoomed_coordinate v z = some c := by
  have hzoom_pos : (0 : S) < ((tileShift z : Nat) : S) := by
    rw [tileShift_eq hz]
    have : (0 : Nat) < 256 * 2 ^ z := by positivity
    exact_mod_cast this
  refine ⟨(c.normalized.1 * ((tileShift z : Nat) : S), c.normalized.2 * ((tileShift z : Nat) : S)),
    ?_, ?_⟩
  · unfold to_zoomed_coordinate
    rw [if_pos hz]
  · unfold from_zoomed_coordinate
    rw [if_neg, if_pos]
    · have hx : c.normalized.1 * ((tileShift z : Nat) : S) / ((tileShift z : Nat) : S)
          = c.normalized.1 := mul_div_cancel_right₀ c.normalized.1 hzoom_pos.ne'
      have hy : c.normalized.2 * ((tileShift z : Nat) : S) / ((tileShift z : Nat) : S)
          = c.normalized.2 := mul_div_cancel_right₀ c.normalized.2 hzoom_pos.ne'
      rw [hx, hy]
    · refine max_lt ?_ ?_
      · exact (mul_lt_mul_of_pos_right h1x hzoom_pos).trans_eq (one_mul _)
      · exact (mul_lt_mul_of_pos_right h1y hzoom_pos).trans_eq (one_mul _)
    · rw [not_or]
      refine ⟨not_lt.mpr hz, not_lt.mpr ?_⟩
      exact le_min (mul_nonneg h0x hzoom_pos.le) (mul_nonneg h0y hzoom_pos.le)

/-- Witness for C8 with rational scalars at zoom level 3. -/
theorem zoomed_coordinate_roundtrip_witness :
    ∃ v, to_zoomed_coordinate (WebMercatorCoord.mk ((1 : ℚ) / 2, 1 / 4)) 3 = some v ∧
      from_zoomed_coordinate v 3 = some (WebMercatorCoord.mk ((1 : ℚ) / 2, 1 / 4)) :=
  zoomed_coordinate_roundtrip ℚ (WebMercatorCoord.mk ((1 : ℚ) / 2, 1 / 4)) 3 (by norm_num)
    (by norm_num) (by norm_num) (by norm_num) (by decide)

/-- C9: `from_zoomed_coordinate` returns `None` exactly when the zoom
level exceeds `MAX_ZOOM`, some component is negative, or some component
is at least `256 * 2^z`; otherwise it returns `Some`. -/
theorem from_zoomed_coordinate_none_iff (S : Type) [LinearOrderedField S]
    (coord : S × S) (z : Nat) :
    from_zoomed_coordinate coord z = none ↔
      MAX_ZOOM < z ∨ coord.1 < 0 ∨ coord.2 < 0 ∨
        ((256 * 2 ^ z : Nat) : S) ≤ coord.1 ∨ ((256 * 2 ^ z : Nat) : S) ≤ coord.2 := by
  unfold from_zoomed_coordinate
  by_cases h1 : MAX_ZOOM < z ∨ min coord.1 coord.2 < 0
  · rw [if_pos h1]
    simp only [true_iff]
    rcases h1 with h1 | h1
    · exact Or.inl h1
    · rcases min_lt_iff.mp h1 with h | h
      · exact Or.inr (Or.inl h)
      · exact Or.inr (Or.inr (Or.inl h))
  · rw [if_neg h1]
    rw [not_or, not_lt, not_lt] at h1
    rw [tileShift_eq h1.1]
    by_cases h2 : max coord.1 coord.2 < ((256 * 2 ^ z : Nat) : S)
    · rw [if_pos h2]
      simp only [reduceCtorEq, false_iff, not_or, not_lt, not_le]
      rcases max_lt_iff.mp h2 with ⟨hc1, hc2⟩
      rcases le_min_iff.mp h1.2 with ⟨hm1, hm2⟩
      exact ⟨h1.1, hm1, hm2, hc1, hc2⟩
    · rw [if_neg h2]
      simp only [true_iff]
      rcases le_max_iff.mp (not_lt.mp h2) with h | h
      · exact Or.inr (Or.inr (Or.inr (Or.inl h)))
      · exact Or.inr (Or.inr (Or.inr (Or.inr h)))

theorem rustClamp_bounds {S : Type} [LinearOrder S] (v lo hi : S) (h : lo ≤ hi) :
    lo ≤ rustClamp v lo hi ∧ rustClamp v lo hi ≤ hi := by
  unfold rustClamp
  split_ifs with h1 h2
  · exact ⟨le_rfl, h⟩
  · exact ⟨h, le_rfl⟩
  · exact ⟨le_of_not_lt h1, le_of_not_lt h2⟩

theorem nonneg_of_deriv_nonneg_on_Ici (f g : ℝ → ℝ) (hd : ∀ y : ℝ, HasDerivAt f (g y) y)
    (hg : ∀ y : ℝ, 0 ≤ y → 0 ≤ g y) (h0 : f 0 = 0) {x : ℝ} (hx : 0 ≤ x) : 0 ≤ f x := by
  have hmono : MonotoneOn f (Set.Ici 0) := by
    refine monotoneOn_of_deriv_nonneg (convex_Ici 0) ?_ ?_ ?_
    · exact fun y _ => (hd y).continuousAt.continuousWithinAt
    · exact fun y _ => (hd y).differentiableAt.differentiableWithinAt
    · intro y hy
      rw [interior_Ici] at hy
      rw [(hd y).deriv]
      exact hg y (le_of_lt hy)
  have h := hmono Set.left_mem_Ici (Set.mem_Ici.mpr hx) hx
  rwa [h0] at h

theorem sin_ge_cubic {x : ℝ} (hx : 0 ≤ x) : x - x ^ 3 / 6 ≤ Real.sin x := by
  have hd : ∀ y : ℝ, HasDerivAt (fun t : ℝ => Real.sin t - (t - t ^ 3 / 6))
      (Real.cos y - (1 - y ^ 2 / 2)) y := by
    intro y
    have h1 : HasDerivAt (fun t : ℝ => t - t ^ 3 / 6) (1 - y ^ 2 / 2) y := by
      have h2 := (hasDerivAt_id y).sub ((hasDerivAt_pow 3 y).div_const 6)
      convert h2 using 1
      push_cast
      ring
    exact (Real.hasDerivAt_sin y).sub h1
  have key := nonneg_of_deriv_nonneg_on_Ici _ _ hd
    (fun y _ => sub_nonneg.mpr Real.one_sub_sq_div_two_le_cos) (by norm_num) hx
  linarith

theorem cos_le_quartic {x : ℝ} (hx : 0 ≤ x) : Real.cos x ≤ 1 - x ^ 2 / 2 + x ^ 4 / 24 := by
  have hd : ∀ y : ℝ, HasDerivAt (fun t : ℝ => 1 - t ^ 2 / 2 + t ^ 4 / 24 - Real.cos t)
      (Real.sin y - (y - y ^ 3 / 6)) y := by
    intro y
    have h1 : HasDerivAt (fun t : ℝ => 1 - t ^ 2 / 2 + t ^ 4 / 24) (-y + y ^ 3 / 6) y := by
      have h2 := ((hasDerivAt_const y (1 : ℝ)).sub ((hasDerivAt_pow 2 y).div_const 2)).add
        ((hasDerivAt_pow 4 y).div_const 24)
      convert h2 using 1
      push_cast
      ring
    have h3 := h1.sub (Real.hasDerivAt_cos y)
    convert h3 using 1
    ring
  have key := nonneg_of_deriv_nonneg_on_Ici _ _ hd
    (fun y hy => sub_nonneg.mpr (sin_ge_cubic hy)) (by norm_num) hx
  linarith

theorem sin_le_quintic {x : ℝ} (hx : 0 ≤ x) : Real.sin x ≤ x - x ^ 3 / 6 + x ^ 5 / 120 := by
  have hd : ∀ y : ℝ, HasDerivAt (fun t : ℝ => t - t ^ 3 / 6 + t ^ 5 / 120 - Real.sin t)
      (1 - y ^ 2 / 2 + y ^ 4 / 24 - Real.cos y) y := by
    intro y
    have h1 : HasDerivAt (fun t : ℝ => t - t ^ 3 / 6 + t ^ 5 / 120)
        (1 - y ^ 2 / 2 + y ^ 4 / 24) y := by
      have h2 := ((hasDerivAt_id y).sub ((hasDerivAt_pow 3 y).div_const 6)).add
        ((hasDerivAt_pow 5 y).div_const 120)
      convert h2 using 1
      push_cast
      ring
    exact h1.sub (Real.hasDerivAt_sin y)
  have key := nonneg_of_deriv_nonneg_on_Ici _ _ hd
    (fun y hy => sub_nonneg.mpr (cos_le_quartic hy)) (by norm_num) hx
  linarith

theorem cos_ge_sextic {x : ℝ} (hx : 0 ≤ x) :
    1 - x ^ 2 / 2 + x ^ 4 / 24 - x ^ 6 / 720 ≤ Real.cos x := by
  have hd : ∀ y : ℝ, HasDerivAt
      (fun t : ℝ => Real.cos t - (1 - t ^ 2 / 2 + t ^ 4 / 24 - t ^ 6 / 720))
      (y - y ^ 3 / 6 + y ^ 5 / 120 - Real.sin y) y := by
    intro y
    have h1 : HasDerivAt (fun t : ℝ => 1 - t ^ 2 / 2 + t ^ 4 / 24 - t ^ 6 / 720)
        (-y + y ^ 3 / 6 - y ^ 5 / 120) y := by
      have h2 := (((hasDerivAt_const y (1 : ℝ)).sub ((hasDerivAt_pow 2 y).div_const 2)).add
        ((hasDerivAt_pow 4 y).div_const 24)).sub ((hasDerivAt_pow 6 y).div_const 720)
      convert h2 using 1
      push_cast
      ring
    have h3 := (Real.hasDerivAt_cos y).sub h1
    convert h3 using 1
    ring
  have key := nonneg_of_deriv_nonneg_on_Ici _ _ hd
    (fun y hy => sub_nonneg.mpr (sin_le_quintic hy)) (by norm_num) hx
  linarith

theorem lat_bound_le_sin : lat_bound_sin ≤ Real.sin ((85.051129 : ℝ) * Real.pi / 180) := by
  have hpi := Real.pi_pos
  have harg : (85.051129 : ℝ) * Real.pi / 180
      = Real.pi / 2 - 4948871 / 180000000 * Real.pi := by
    rw [show (85.051129 : ℝ) = 85051129 / 1000000 by norm_num]
    ring
  rw [harg, Real.sin_pi_div_two_sub]
  have hle : (4948871 / 180000000 : ℝ) * Real.pi
      ≤ 4948871 / 180000000 * 3.14159265358979323847 := by
    have h := Real.pi_lt_d20
    nlinarith
  have h0 : (0 : ℝ) ≤ 4948871 / 180000000 * Real.pi := by positivity
  have h1 : (4948871 / 180000000 : ℝ) * 3.14159265358979323847 ≤ Real.pi := by
    have h2 := Real.pi_gt_three
    have h3 : (4948871 / 180000000 : ℝ) * 3.14159265358979323847 ≤ 3 := by norm_num
    linarith
  have hcos := Real.cos_le_cos_of_nonneg_of_le_pi h0 h1 hle
  have hsex := @cos_ge_sextic ((4948871 / 180000000 : ℝ) * 3.14159265358979323847) (by norm_num)
  have hpoly : lat_bound_sin
      ≤ 1 - ((4948871 / 180000000 : ℝ) * 3.14159265358979323847) ^ 2 / 2
        + ((4948871 / 180000000 : ℝ) * 3.14159265358979323847) ^ 4 / 24
        - ((4948871 / 180000000 : ℝ) * 3.14159265358979323847) ^ 6 / 720 := by
    unfold lat_bound_sin
    norm_num
  linarith

theorem arcsin_lat_bound : Real.arcsin lat_bound_sin ≤ (85.051129 : ℝ) * Real.pi / 180 := by
  have hpi := Real.pi_pos
  have hmem1 : lat_bound_sin ∈ Set.Icc (-1 : ℝ) 1 := by
    unfold lat_bound_sin
    constructor <;> norm_num
  have hmem2 : (85.051129 : ℝ) * Real.pi / 180 ∈ Set.Icc (-(Real.pi / 2)) (Real.pi / 2) := by
    constructor
    · have h : (0 : ℝ) ≤ 85.051129 * Real.pi / 180 := by positivity
      linarith
    · nlinarith
  rw [Real.arcsin_le_iff_le_sin hmem1 hmem2]
  exact lat_bound_le_sin

/-- C10: for every Web Mercator coordinate, `to_lat_lng` returns an
altitude of exactly zero, a longitude within `[-180, 180]` degrees, and
a latitude within the Web Mercator latitude bound
`[-85.051129, 85.051129]` degrees (both clamped before conversion). -/
theorem to_lat_lng_in_bounds (c : WebMercatorCoord ℝ) :
    (to_lat_lng c).2.2 = 0 ∧
      -180 ≤ (to_lat_lng c).2.1 ∧ (to_lat_lng c).2.1 ≤ 180 ∧
      -(85.051129 : ℝ) ≤ (to_lat_lng c).1 ∧ (to_lat_lng c).1 ≤ 85.051129 := by
  have hpi := Real.pi_pos
  have hs_nonneg : (0 : ℝ) ≤ lat_bound_sin := by unfold lat_bound_sin; norm_num
  obtain ⟨hsy_lo, hsy_hi⟩ := rustClamp_bounds
    (1 / ((Real.exp (-c.normalized.2 * 4 * Real.pi) + 1) * (-0.5)) + 1)
    (-lat_bound_sin) lat_bound_sin (by linarith)
  obtain ⟨hlng_lo, hlng_hi⟩ := rustClamp_bounds (2 * Real.pi * (c.normalized.1 - 0.5))
    (-Real.pi) Real.pi (by linarith)
  have hdeg_nonneg : (0 : ℝ) ≤ 180 / Real.pi := by positivity
  refine ⟨rfl, ?_, ?_, ?_, ?_⟩
  · show -180 ≤ rustClamp (2 * Real.pi * (c.normalized.1 - 0.5)) (-Real.pi) Real.pi
      * (180 / Real.pi)
    have h1 := mul_le_mul_of_nonneg_right hlng_lo hdeg_nonneg
    have h2 : -Real.pi * (180 / Real.pi) = -180 := by
      field_simp
      ring
    linarith
  · show rustClamp (2 * Real.pi * (c.normalized.1 - 0.5)) (-Real.pi) Real.pi
      * (180 / Real.pi) ≤ 180
    have h1 := mul_le_mul_of_nonneg_right hlng_hi hdeg_nonneg
    have h2 : Real.pi * (180 / Real.pi) = 180 := by field_simp
    linarith
  · show -(85.051129 : ℝ) ≤ Real.arcsin (rustClamp
      (1 / ((Real.exp (-c.normalized.2 * 4 * Real.pi) + 1) * (-0.5)) + 1)
      (-lat_bound_sin) lat_bound_sin) * (180 / Real.pi)
    have ha1 := Real.monotone_arcsin hsy_lo
    rw [Real.arcsin_neg] at ha1
    have ha2 : -((85.051129 : ℝ) * Real.pi / 180) ≤ Real.arcsin (rustClamp
        (1 / ((Real.exp (-c.normalized.2 * 4 * Real.pi) + 1) * (-0.5)) + 1)
        (-lat_bound_sin) lat_bound_sin) := by
      have := arcsin_lat_bound
      linarith
    have h1 := mul_le_mul_of_nonneg_right ha2 hdeg_nonneg
    have h2 : -((85.051129 : ℝ) * Real.pi / 180) * (180 / Real.pi) = -85.051129 := by
      field_simp
      ring
    linarith
  · show Real.arcsin (rustClamp
      (1 / ((Real.exp (-c.normalized.2 * 4 * Real.pi) + 1) * (-0.5)) + 1)
      (-lat_bound_sin) lat_bound_sin) * (180 / Real.pi) ≤ 85.051129
    have ha1 := Real.monotone_arcsin hsy_hi
    have ha2 : Real.arcsin (rustClamp
        (1 / ((Real.exp (-c.normalized.2 * 4 * Real.pi) + 1) * (-0.5)) + 1)
        (-lat_bound_sin) lat_bound_sin) ≤ (85.051129 : ℝ) * Real.pi / 180 := by
      have := arcsin_lat_bound
      linarith
    have h1 := mul_le_mul_of_nonneg_right ha2 hdeg_nonneg
    have h2 : (85.051129 : ℝ) * Real.pi / 180 * (180 / Real.pi) = 85.051129 := by
      field_simp
    linarith
